import Mathlib

/-!
Verification development for the `bioclas.fuzzylogic` core of the razprox
repository: membership functions (`mem_functions.py`), fuzzy sets
(`fuzzy_set.py`), fuzzy variables and defuzzification (`fuzzy_variable.py`),
fuzzy rules (`fuzzy_rule.py`) and the fuzzy inference system (`fis.py`).

The Python code is embedded shallowly:

* Python floats are modelled as rationals (`ℚ`); every arithmetic step of the
  source is mirrored exactly on `ℚ`.
* A numpy 1-d array is a `List ℚ`; vectorized numpy expressions act
  elementwise, so they are mirrored by `List.map` / `List.zipWith`.
* A Python `dict` is an insertion-ordered association list
  (`List (String × α)`); `dictGet` mirrors `d.get(k)` / `k in d`, and
  `dictSet` mirrors `d[k] = v` (in-place update of an existing key, append of
  a fresh one).
* Fallible code returns `Except PyErr _`; a `raise` is `.error`.
-/

/-- Python exceptions raised by the fuzzy-logic core: `ValueError msg`,
`AttributeError attr` (attribute lookup failure while building an error
message), and `AssertionError` (a failed `assert`). -/
inductive PyErr where
  | valueError (msg : String)
  | attributeError (attr : String)
  | assertionError
deriving DecidableEq

/-- `d.get(k)` on a Python dict modelled as an insertion-ordered association
list: the first binding of `k` (keys are unique in an actual dict). -/
def dictGet {α : Type} : List (String × α) → String → Option α
  | [], _ => none
  | (k', v) :: t, k => if k' = k then some v else dictGet t k

/-- `d[k] = v` on a Python dict: overwrite the existing binding in place
(keeping insertion order) or append a fresh binding at the end. -/
def dictSet {α : Type} : List (String × α) → String → α → List (String × α)
  | [], k, v => [(k, v)]
  | (k', v') :: t, k, v =>
      if k' = k then (k', v) :: t else (k', v') :: dictSet t k v

/-- `np.minimum` / Python `min` on two scalars, written with an executable
comparison so that concrete runs of the embedding evaluate. -/
def npMin (a b : ℚ) : ℚ := if a ≤ b then a else b

/-- `np.maximum` / Python `max` on two scalars. -/
def npMax (a b : ℚ) : ℚ := if a ≤ b then b else a

/-- `np.clip(q, 0, 1)`: clamp to the unit interval. -/
def npClip01 (q : ℚ) : ℚ := npMin (npMax q 0) 1

/-- `np.arange(a, b, step)`: the samples `a + i * step` for
`0 ≤ i < ⌈(b - a) / step⌉` (the endpoint `b` is excluded). -/
def arange (a b step : ℚ) : List ℚ :=
  (List.range (⌈(b - a) / step⌉).toNat).map fun (i : ℕ) => a + (i : ℚ) * step

/-! ## mem_functions.py -/

/-- The scalar body of `trimf` (`mem_functions.py` lines 27-30): the left
ratio `(x-a)/(b-a)` replaced by `1` everywhere when `b - a == 0`, the right
ratio `(c-x)/(c-b)` replaced by `1` everywhere when `c - b == 0`
(`np.where((b - a) == 0, 1, ...)`), then `np.clip(np.minimum(...), 0, 1)`. -/
def trimfRaw (x a b c : ℚ) : ℚ :=
  npClip01 (npMin (if b - a = 0 then 1 else (x - a) / (b - a))
                  (if c - b = 0 then 1 else (c - x) / (c - b)))

/-- `trimf(x, a, b, c)` applied to one sample: the `assert a <= b <= c` at
the top of the function raises `AssertionError` when violated, otherwise the
clipped min-of-ratios value is produced. -/
def trimf (x a b c : ℚ) : Except PyErr ℚ :=
  if a ≤ b ∧ b ≤ c then .ok (trimfRaw x a b c) else .error .assertionError

/-- The scalar body of `trapmf` (`mem_functions.py` lines 62-65): degenerate
shoulders give ratio 1, and the result is
`np.clip(np.minimum(np.minimum(left, 1), right), 0, 1)`. -/
def trapmfRaw (x a b c d : ℚ) : ℚ :=
  npClip01 (npMin (npMin (if b - a = 0 then 1 else (x - a) / (b - a)) 1)
                  (if d - c = 0 then 1 else (d - x) / (d - c)))

/-- The message of the `ValueError` raised by `trapmf` on bad parameters
(the source message additionally interpolates the given values). -/
def trapmfParamMsg : String :=
  "Invalid parameters for trapezoidal membership function. Must satisfy a <= b <= c <= d."

/-- `trapmf(x, a, b, c, d)` applied to one sample: the explicit
`raise ValueError` when the ordering `a <= b <= c <= d` is violated,
otherwise the clipped trapezoid value. -/
def trapmf (x a b c d : ℚ) : Except PyErr ℚ :=
  if a ≤ b ∧ b ≤ c ∧ c ≤ d then .ok (trapmfRaw x a b c d)
  else .error (.valueError trapmfParamMsg)

/-! ## fuzzy_set.py -/

/-- A fuzzy set: a name together with its (fallible) membership function, one
scalar sample at a time.  `FuzzySet.__init__` additionally checks that the
name is a string and the function callable; for a Lean `String` and a Lean
function those checks always pass. -/
structure FuzzySet where
  name : String
  mf : ℚ → Except PyErr ℚ

/-- `FuzzySet.triangular(name, a, b, c)`: the classmethod validates only the
name (type and non-`None`), which cannot fail for a Lean `String`; the shape
parameters are merely captured in the closure `lambda x: trimf(x, a, b, c)`
and are NOT validated at construction time. -/
def FuzzySet.triangular (name : String) (a b c : ℚ) : Except PyErr FuzzySet :=
  .ok ⟨name, fun x => trimf x a b c⟩

/-- `FuzzySet.trapezoidal(name, a, b, c, d)`: same pattern, the parameters
are only captured in the closure `lambda x: trapmf(x, a, b, c, d)`. -/
def FuzzySet.trapezoidal (name : String) (a b c d : ℚ) : Except PyErr FuzzySet :=
  .ok ⟨name, fun x => trapmf x a b c d⟩

/-- `FuzzySet.dof(value)`: evaluate the membership function on the singleton
array `np.array([value])` and take element 0. -/
def FuzzySet.dof (fs : FuzzySet) (value : ℚ) : Except PyErr ℚ := fs.mf value

/-- `Except.isOk` as a plain Bool, to state that a Python call returned
normally. -/
def exceptOk {ε α : Type} : Except ε α → Bool
  | .ok _ => true
  | .error _ => false

/-! ## fuzzy_variable.py : FuzzyVariable -/

/-- A fuzzy variable: name, domain interval, and the insertion-ordered dict
of fuzzy sets (`self.__fuzzysets`, keyed by set name). -/
structure FuzzyVariable where
  name : String
  interval : ℚ × ℚ
  fuzzysets : List (String × FuzzySet)

/-- Python attribute lookup on a `FuzzyVariable` instance, restricted to the
string-valued attributes.  Inside `class FuzzyVariable`, `self.__name` is
name-mangled to the instance attribute `_FuzzyVariable__name`; a bare
`self._name` is NOT mangled, no such attribute exists, and the lookup raises
`AttributeError`. -/
def FuzzyVariable.getattrStr (v : FuzzyVariable) (attr : String) : Except PyErr String :=
  if attr = "_FuzzyVariable__name" then .ok v.name
  else .error (.attributeError attr)

/-- `FuzzyVariable.dof(fuzzyset_name, value)` (`fuzzy_variable.py` lines
53-59).  When the set is missing, the source builds the error message with
the f-string `f"Fuzzy set '{fuzzyset_name}' not found in variable
'{self._name}'."`; evaluating `self._name` raises `AttributeError` before
the `ValueError` can be raised. -/
def FuzzyVariable.dof (v : FuzzyVariable) (fuzzysetName : String) (value : ℚ) :
    Except PyErr ℚ :=
  match dictGet v.fuzzysets fuzzysetName with
  | some fs => fs.dof value
  | none => do
      let n ← v.getattrStr "_name"
      .error (.valueError ("Fuzzy set " ++ fuzzysetName ++ " not found in variable " ++ n ++ "."))

/-- Message of the `ValueError` raised for an unsupported inference mode
(same text in `fis.py` line 92, `fuzzy_rule.py` line 98 and
`fuzzy_variable.py` line 74; the source quotes the mode names). -/
def unsupportedModeMsg (mode : String) : String :=
  "Unsupported fuzzy inference mode: " ++ mode ++ ". Choose mandami or larsen."

/-- Message of the `ValueError` of `defuzzify` for an unknown fuzzy-set key
(`fuzzy_variable.py` line 84; this one correctly uses `self.__name`). -/
def fsNotFoundMsg (fsName varName : String) : String :=
  "Fuzzy set " ++ fsName ++ " not found in variable " ++ varName ++ "."

/-- Message of the `ValueError` for an out-of-range degree
(`fuzzy_variable.py` line 86). -/
def degreeRangeMsg (fsName : String) : String :=
  "Degree of membership for fuzzy set " ++ fsName ++ " must be in [0, 1]."

/-- Message of the `ValueError` for a zero centroid denominator
(`fuzzy_variable.py` line 107). -/
def zeroDenomMsg : String := "Denominator in defuzzification is zero."

/-- Message of the `ValueError` of the empty `averageMax` band
(`fuzzy_variable.py` line 113). -/
def noMaxMsg : String :=
  "No maximum found in membership function for averageMax defuzzification."

/-- Message of the `ValueError` raised by `np.max` on an empty array. -/
def npEmptyMaxMsg : String :=
  "zero-size array to reduction operation maximum which has no identity"

/-- Message of the `ValueError` for an unsupported defuzzification method
(`fuzzy_variable.py` line 116). -/
def unsupportedMethodMsg (method : String) : String :=
  "Unsupported defuzzification method: " ++ method ++ ". Choose centroid or averageMax."

/-- Elementwise evaluation of a fallible numpy expression over an array:
the first raised exception propagates, otherwise the list of results. -/
def vecM {α β : Type} (f : α → Except PyErr β) : List α → Except PyErr (List β)
  | [] => .ok []
  | x :: xs => do
      let y ← f x
      let ys ← vecM f xs
      .ok (y :: ys)

/-- The loop of `defuzzify` building the aggregated membership curve
(`fuzzy_variable.py` lines 82-89): for each `(fs_name, degree)` pair in the
degrees dict, validate the key and the range of the degree, clip the set's
membership with the degree via the mode's t-norm, and fold into the running
curve via the mode's t-conorm.  The curve is the list of `(x, mu_x)` pairs. -/
def aggLoop (v : FuzzyVariable) (tnorm tconorm : ℚ → ℚ → ℚ) :
    List (String × ℚ) → List (ℚ × ℚ) → Except PyErr (List (ℚ × ℚ))
  | [], curve => .ok curve
  | (fsName, degree) :: rest, curve =>
      match dictGet v.fuzzysets fsName with
      | none => .error (.valueError (fsNotFoundMsg fsName v.name))
      | some fs =>
          if degree < 0 ∨ 1 < degree then .error (.valueError (degreeRangeMsg fsName))
          else do
            let curve' ← vecM (fun p =>
              (fs.mf p.1).map fun m => (p.1, tconorm p.2 (tnorm m degree))) curve
            aggLoop v tnorm tconorm rest curve'

/-- Lines 72-89 of `defuzzify`: sample the domain with `np.arange(a, b,
step)`, start from the all-zero curve `np.zeros_like(x)` and run `aggLoop`
with the selected mode's t-norm (`np.minimum` for mandami, product for
larsen) and t-conorm (`np.maximum` for mandami, probabilistic sum for
larsen). -/
def FuzzyVariable.aggCurve (v : FuzzyVariable) (degrees : List (String × ℚ))
    (imode : String) (step : ℚ) : Except PyErr (List (ℚ × ℚ)) :=
  aggLoop v
    (if imode = "mandami" then fun q d => npMin q d else fun q d => q * d)
    (if imode = "mandami" then fun q d => npMax q d else fun q d => q + d - q * d)
    degrees
    ((arange v.interval.1 v.interval.2 step).map fun x => (x, 0))

/-- `FuzzyVariable.defuzzify(degrees, method, imode, step)`
(`fuzzy_variable.py` lines 61-116): validate the mode, build the aggregated
curve, then dispatch on the method.  `centroid` integrates numerator
`np.sum(x * mu_x) * step` and denominator `np.sum(mu_x) * step`, raising on
a denominator equal to `0.0`; `averageMax` takes the mean of the samples
whose membership exceeds `np.max(mu_x) - 0.1`. -/
def FuzzyVariable.defuzzify (v : FuzzyVariable) (degrees : List (String × ℚ))
    (method imode : String) (step : ℚ) : Except PyErr ℚ :=
  if imode = "mandami" ∨ imode = "larsen" then do
    let curve ← v.aggCurve degrees imode step
    if method = "centroid" then
      let numerator := (curve.map fun p => p.1 * p.2).sum * step
      let denominator := (curve.map fun p => p.2).sum * step
      if denominator = 0 then .error (.valueError zeroDenomMsg)
      else .ok (numerator / denominator)
    else if method = "averageMax" then
      match curve with
      | [] => .error (.valueError npEmptyMaxMsg)
      | p0 :: prest =>
          let maxMu := (prest.map fun p => p.2).foldl npMax p0.2
          let xMax := (curve.filter fun p => maxMu - 1/10 < p.2).map fun p => p.1
          if xMax = [] then .error (.valueError noMaxMsg)
          else .ok (xMax.sum / (xMax.length : ℚ))
    else .error (.valueError (unsupportedMethodMsg method))
  else .error (.valueError (unsupportedModeMsg imode))

/-! ## fuzzy_rule.py -/

/-- A fuzzy rule: the dict `self.__antecedents` mapping each antecedent
variable name to its `(variable, fuzzyset_name)` pair, and the optional
consequent `(variable, fuzzyset_name)` pair. -/
structure FuzzyRule where
  antecedents : List (String × FuzzyVariable × String)
  consequent : Option (FuzzyVariable × String)

/-- Message of the `ValueError` for an under-specified rule
(`fuzzy_rule.py` line 85). -/
def notFullyDefinedMsg : String := "Fuzzy rule is not fully defined."

/-- Message of the `ValueError` for a missing antecedent input
(`fuzzy_rule.py` line 90; the source quotes the variable name). -/
def missingInputMsg (varName : String) : String :=
  "Input value for " ++ varName ++ " is missing."

/-- The antecedent loop of `FuzzyRule.eval` (`fuzzy_rule.py` lines 87-99),
folding `antecedent_result` (started at `1.0`) over the antecedents: look up
the input value, compute the degree of fulfillment, combine with the mode's
t-norm (min for mandami, product for larsen, `ValueError` otherwise), and
then — line 99, executed unconditionally after the mode branch — take `min`
with the degree once more. -/
def FuzzyRule.evalFold (inputs : List (String × ℚ)) (mode : String) :
    List (String × FuzzyVariable × String) → ℚ → Except PyErr ℚ
  | [], acc => .ok acc
  | (varN, var, fsName) :: rest, acc =>
      match dictGet inputs varN with
      | none => .error (.valueError (missingInputMsg varN))
      | some value => do
          let degree ← var.dof fsName value
          let acc1 ←
            if mode = "mandami" then .ok (npMin acc degree)
            else if mode = "larsen" then .ok (acc * degree)
            else .error (.valueError (unsupportedModeMsg mode))
          FuzzyRule.evalFold inputs mode rest (npMin acc1 degree)

/-- `FuzzyRule.eval(input_values, mode)` (`fuzzy_rule.py` lines 66-101):
raise if the rule is not fully defined, fold the antecedents, and return the
consequent variable, its fuzzy-set name, and the firing degree. -/
def FuzzyRule.eval (r : FuzzyRule) (inputs : List (String × ℚ)) (mode : String) :
    Except PyErr (FuzzyVariable × String × ℚ) :=
  match r.consequent with
  | none => .error (.valueError notFullyDefinedMsg)
  | some (cvar, cfsName) =>
      if r.antecedents.isEmpty then .error (.valueError notFullyDefinedMsg)
      else do
        let degree ← FuzzyRule.evalFold inputs mode r.antecedents 1
        .ok (cvar, cfsName, degree)

/-! ## fis.py -/

/-- The fuzzy inference system: antecedent variable registry
`self.__a_vars`, the shared consequent variable, and the rule registry
`self.__rules` (a dict keyed by rule name; `__init__` additionally requires
at least one antecedent variable). -/
structure FIS where
  a_vars : List (String × FuzzyVariable)
  consequent : FuzzyVariable
  rules : List (String × FuzzyRule)

/-- The rule loop of `FIS.eval` (`fis.py` lines 83-92): evaluate each rule,
then — inside the loop — aggregate into `output_values` with
`max(degree, output_values.get(set_n, 0.0))` in mandami mode and the
probabilistic sum `x + degree - x * degree` in larsen mode, raising
`ValueError` for any other mode.  Note that the mode check is only reached
if a rule exists (and `FuzzyRule.eval` itself already validates the mode at
its first antecedent). -/
def FIS.evalLoop (inputs : List (String × ℚ)) (mode : String) :
    List (String × FuzzyRule) → List (String × ℚ) → Except PyErr (List (String × ℚ))
  | [], acc => .ok acc
  | (_, r) :: rest, acc => do
      let t ← r.eval inputs mode
      let setN := t.2.1
      let degree := t.2.2
      if mode = "mandami" then
        FIS.evalLoop inputs mode rest
          (dictSet acc setN (npMax degree ((dictGet acc setN).getD 0)))
      else if mode = "larsen" then
        let x := (dictGet acc setN).getD 0
        FIS.evalLoop inputs mode rest (dictSet acc setN (x + degree - x * degree))
      else .error (.valueError (unsupportedModeMsg mode))

/-- `FIS.eval(input_values, mode)` (`fis.py` lines 63-93): run the rule loop
starting from the empty dict and return the consequent variable together
with the aggregated per-set degrees. -/
def FIS.eval (fis : FIS) (inputs : List (String × ℚ)) (mode : String) :
    Except PyErr (FuzzyVariable × List (String × ℚ)) :=
  (FIS.evalLoop inputs mode fis.rules []).map fun m => (fis.consequent, m)

/-- The degree map of `FIS.eval`, dropping the (function-valued) consequent
variable so results can be compared by evaluation. -/
def evalMap (r : Except PyErr (FuzzyVariable × List (String × ℚ))) :
    Except PyErr (List (String × ℚ)) :=
  r.map fun p => p.2

/-! ## fuzzy_variable.py : FuzzyVariableQualitative -/

/-- A qualitative fuzzy variable: the underlying `FuzzyVariable` data plus
the color dict `self.__colors` (RGB triples of Python ints). -/
structure FuzzyVariableQualitative where
  name : String
  interval : ℚ × ℚ
  fuzzysets : List (String × FuzzySet)
  colors : List (String × ℤ × ℤ × ℤ)

/-- Message of the `ValueError` for a zero total degree in
`defuzzify_color` (`fuzzy_variable.py` line 154). -/
def zeroTotalMsg : String :=
  "Total degree of membership is zero; cannot defuzzify color."

/-- Python `int(q)`: truncation toward zero (`Int.tdiv` is T-division). -/
def pyInt (q : ℚ) : ℤ := Int.tdiv q.num (q.den : ℤ)

/-- The accumulation loop of `defuzzify_color` (`fuzzy_variable.py` lines
158-165): for each `(fs_name, degree)` pair add `color[ch] * (degree /
total)` onto each channel.  When a key has no color, the source formats the
error message with `self._name`; inside `class FuzzyVariableQualitative`
that attribute does not exist (the instance only carries the mangled
`_FuzzyVariable__name`), so an `AttributeError` is raised. -/
def colorLoop (qv : FuzzyVariableQualitative) (total : ℚ) :
    List (String × ℚ) → ℚ → ℚ → ℚ → Except PyErr (ℚ × ℚ × ℚ)
  | [], r, g, b => .ok (r, g, b)
  | (fsName, degree) :: rest, r, g, b =>
      match dictGet qv.colors fsName with
      | none => .error (.attributeError "_name")
      | some (cr, cg, cb) =>
          colorLoop qv total rest
            (r + (cr : ℚ) * (degree / total))
            (g + (cg : ℚ) * (degree / total))
            (b + (cb : ℚ) * (degree / total))

/-- `FuzzyVariableQualitative.defuzzify_color(degrees)` (`fuzzy_variable.py`
lines 141-167): raise when the total degree is `0.0`, otherwise accumulate
the weighted channels and truncate each to an integer with `int(...)`. -/
def FuzzyVariableQualitative.defuzzifyColor (qv : FuzzyVariableQualitative)
    (degrees : List (String × ℚ)) : Except PyErr (ℤ × ℤ × ℤ) :=
  let total := (degrees.map fun p => p.2).sum
  if total = 0 then .error (.valueError zeroTotalMsg)
  else do
    let t ← colorLoop qv total degrees 0 0 0
    .ok (pyInt t.1, pyInt t.2.1, pyInt t.2.2)

/-! ## Concrete instances (mirroring `src/tests/test_fis.py` and the spec's
end-to-end example) used to instantiate the theorems below. -/

/-- The fuzzy set `negativo = FuzzySet.trapezoidal("negativo", -20, -20, -2, 0)`
(the payload of the factory, which always returns it). -/
def fsNegativo : FuzzySet := ⟨"negativo", fun x => trapmf x (-20) (-20) (-2) 0⟩

/-- The fuzzy set `cero = FuzzySet.triangular("cero", -2, 0, 2)`. -/
def fsCero : FuzzySet := ⟨"cero", fun x => trimf x (-2) 0 2⟩

/-- The fuzzy set `positivo = FuzzySet.trapezoidal("positivo", 0, 2, 20, 20)`. -/
def fsPositivo : FuzzySet := ⟨"positivo", fun x => trapmf x 0 2 20 20⟩

/-- The fuzzy set `muy alta = FuzzySet.trapezoidal("muy alta", 10, 20, 40, 40)`. -/
def fsMuyAlta : FuzzySet := ⟨"muy alta", fun x => trapmf x 10 20 40 40⟩

/-- The fuzzy set `media = FuzzySet.triangular("media", -2, 0, 2)`. -/
def fsMedia : FuzzySet := ⟨"media", fun x => trimf x (-2) 0 2⟩

/-- The antecedent variable `e` over `(-20, 20)`. -/
def eVar : FuzzyVariable :=
  ⟨"e", (-20, 20), [("negativo", fsNegativo), ("cero", fsCero), ("positivo", fsPositivo)]⟩

/-- The consequent variable `Du` over `(-40, 40)`. -/
def duVar : FuzzyVariable := ⟨"Du", (-40, 40), [("muy alta", fsMuyAlta), ("media", fsMedia)]⟩

/-- The rule `IF e IS negativo THEN Du IS muy alta` (as `FIS.add_rule`
builds it). -/
def ruleNegativo : FuzzyRule := ⟨[("e", eVar, "negativo")], some (duVar, "muy alta")⟩

/-- The rule `IF e IS cero THEN Du IS media`. -/
def ruleCero : FuzzyRule := ⟨[("e", eVar, "cero")], some (duVar, "media")⟩

/-- The rule `IF e IS positivo THEN Du IS media`. -/
def rulePositivo : FuzzyRule := ⟨[("e", eVar, "positivo")], some (duVar, "media")⟩

/-- A FIS with the single rule `e IS negativo -> Du IS muy alta`. -/
def fisNeg : FIS := ⟨[("e", eVar)], duVar, [("rule1", ruleNegativo)]⟩

/-- A FIS with no rules registered (only construction-time state). -/
def fisNoRules : FIS := ⟨[("e", eVar)], duVar, []⟩

/-- A FIS with the two rules `e IS cero -> Du IS media` and
`e IS positivo -> Du IS media`, in that registration order. -/
def fisTwo : FIS := ⟨[("e", eVar)], duVar, [("r1", ruleCero), ("r2", rulePositivo)]⟩

/-- `fisTwo` with its rules registered in the opposite order. -/
def fisTwoSwapped : FIS := ⟨[("e", eVar)], duVar, [("r2", rulePositivo), ("r1", ruleCero)]⟩

/-- A qualitative variable with labels `A -> (255, 0, 0)` and
`B -> (0, 0, 255)` (sets triangular at the label indices over `[0, 1]`). -/
def qvEx : FuzzyVariableQualitative :=
  ⟨"q", (0, 1),
   [("A", ⟨"A", fun x => trimf x (-1) 0 1⟩), ("B", ⟨"B", fun x => trimf x 0 1 2⟩)],
   [("A", (255, 0, 0)), ("B", (0, 0, 255))]⟩

/-- A small quantitative variable over `(0, 1)` with the single triangular
set `s = trimf(·, 0, 1/2, 1)`. -/
def vSmall : FuzzyVariable := ⟨"v", (0, 1), [("s", ⟨"s", fun x => trimf x 0 (1/2) 1⟩)]⟩


/-! ## Shared lemmas about the embedding -/

theorem npMin_eq_min (a b : ℚ) : npMin a b = min a b := by
  unfold npMin
  split_ifs with h
  · exact (min_eq_left h).symm
  · exact (min_eq_right (le_of_not_le h)).symm

theorem npMax_eq_max (a b : ℚ) : npMax a b = max a b := by
  unfold npMax
  split_ifs with h
  · exact (max_eq_right h).symm
  · exact (max_eq_left (le_of_not_le h)).symm

theorem npClip01_eq (q : ℚ) : npClip01 q = min (max q 0) 1 := by
  rw [npClip01, npMin_eq_min, npMax_eq_max]

theorem dictGet_dictSet {α : Type} (l : List (String × α)) (k : String) (v : α)
    (s : String) :
    dictGet (dictSet l k v) s = if k = s then some v else dictGet l s := by
  induction l with
  | nil => simp [dictSet, dictGet]
  | cons hd t ih =>
      obtain ⟨k', v'⟩ := hd
      by_cases hk : k' = k
      · subst hk
        by_cases hs : k' = s <;> simp [dictSet, dictGet, hs]
      · by_cases hs : k' = s
        · subst hs
          simp [dictSet, dictGet, hk, Ne.symm hk]
        · simp [dictSet, dictGet, hk, hs, ih]

theorem dictGet_mem {α : Type} {l : List (String × α)} {k : String} {x : α}
    (h : dictGet l k = some x) : (k, x) ∈ l := by
  induction l with
  | nil => simp [dictGet] at h
  | cons hd t ih =>
      obtain ⟨k', v'⟩ := hd
      by_cases hk : k' = k
      · subst hk
        simp [dictGet] at h
        simp [h]
      · simp [dictGet, hk] at h
        exact List.mem_cons_of_mem _ (ih h)

theorem dictSet_forall {α : Type} {P : α → Prop} {l : List (String × α)}
    {k : String} {v : α} (hl : ∀ p ∈ l, P p.2) (hv : P v) :
    ∀ p ∈ dictSet l k v, P p.2 := by
  induction l with
  | nil => simpa [dictSet] using hv
  | cons hd t ih =>
      obtain ⟨k', v'⟩ := hd
      by_cases hk : k' = k
      · subst hk
        intro p hp
        simp [dictSet] at hp
        rcases hp with h | h
        · rw [h]; exact hv
        · exact hl p (List.mem_cons_of_mem _ h)
      · intro p hp
        simp [dictSet, hk] at hp
        rcases hp with h | h
        · rw [h]; exact hl (k', v') (by simp)
        · exact ih (fun q hq => hl q (List.mem_cons_of_mem _ hq)) p h

theorem dictGet_getD {α : Type} {P : α → Prop} {l : List (String × α)}
    {k : String} {d : α} (hl : ∀ p ∈ l, P p.2) (hd : P d) :
    P ((dictGet l k).getD d) := by
  cases h : dictGet l k with
  | none => simpa using hd
  | some x => simpa using hl (k, x) (dictGet_mem h)

theorem npClip01_bounds (q : ℚ) : 0 ≤ npClip01 q ∧ npClip01 q ≤ 1 := by
  rw [npClip01_eq]
  constructor
  · exact le_min (le_max_right q 0) zero_le_one
  · exact min_le_right _ _

theorem npClip01_nonpos {q : ℚ} (h : q ≤ 0) : npClip01 q = 0 := by
  rw [npClip01_eq]
  rw [max_eq_right h]
  exact min_eq_left zero_le_one

theorem npClip01_mono {x y : ℚ} (h : x ≤ y) : npClip01 x ≤ npClip01 y := by
  rw [npClip01_eq, npClip01_eq]
  exact min_le_min (max_le_max h le_rfl) le_rfl

theorem npClip01_min_of_one_le {l r : ℚ} (h : 1 ≤ r) :
    npClip01 (min l r) = npClip01 l := by
  rcases le_total l r with hlr | hlr
  · rw [min_eq_left hlr]
  · rw [min_eq_right hlr]
    have hl : 1 ≤ l := le_trans h hlr
    rw [npClip01_eq, npClip01_eq]
    rw [max_eq_left (le_trans zero_le_one h), max_eq_left (le_trans zero_le_one hl),
      min_eq_right h, min_eq_right hl]

theorem trimf_ok_bounds {x a b c d : ℚ} (h : trimf x a b c = .ok d) :
    0 ≤ d ∧ d ≤ 1 := by
  unfold trimf at h
  split at h
  · cases h
    exact npClip01_bounds _
  · cases h

theorem trapmf_ok_bounds {x a b c d q : ℚ} (h : trapmf x a b c d = .ok q) :
    0 ≤ q ∧ q ≤ 1 := by
  unfold trapmf at h
  split at h
  · cases h
    exact npClip01_bounds _
  · cases h

theorem trimfRaw_eq_left {z a b c : ℚ} (hz : z ≤ b) (hbc : b ≤ c) :
    trimfRaw z a b c = npClip01 (if b - a = 0 then 1 else (z - a) / (b - a)) := by
  rw [trimfRaw, npMin_eq_min]
  apply npClip01_min_of_one_le
  split_ifs with h
  · exact le_rfl
  · have hcb : 0 < c - b := lt_of_le_of_ne (sub_nonneg.2 hbc) (Ne.symm h)
    rw [one_le_div hcb]
    exact sub_le_sub_left hz c

theorem trimfRaw_eq_right {z a b c : ℚ} (hab : a ≤ b) (hz : b ≤ z) :
    trimfRaw z a b c = npClip01 (if c - b = 0 then 1 else (c - z) / (c - b)) := by
  rw [trimfRaw, npMin_eq_min, min_comm]
  apply npClip01_min_of_one_le
  split_ifs with h
  · exact le_rfl
  · have hba : 0 < b - a := lt_of_le_of_ne (sub_nonneg.2 hab) (Ne.symm h)
    rw [one_le_div hba]
    exact sub_le_sub_right hz a

/-- C4 counterexample: with the valid degenerate parameters `a = b = 0`,
`c = 5` the source's `np.where((b - a) == 0, 1, ...)` replaces the whole
left arm by 1, so at `x = -1 ≤ a` the membership is `1`, not `0` as the
claim states for every `x ≤ a`. -/
theorem trimf_degenerate_foot_counterexample :
    ((0 : ℚ) ≤ 0 ∧ (0 : ℚ) ≤ 5 ∧ (-1 : ℚ) ≤ 0)
    ∧ trimf (-1) 0 0 5 = .ok 1 ∧ (1 : ℚ) ≠ 0 :=
  ⟨by norm_num, by norm_num [trimf, trimfRaw, npClip01, npMin, npMax], by norm_num⟩

/-- C4 amended: for `a ≤ b ≤ c`, `trimf` equals the clipped min of the two
ratios (with a degenerate ratio defined as 1); at `x = b` it equals 1; it
vanishes at `x ≤ a` when `a < b` and at `x ≥ c` when `b < c` (NOT in the
degenerate cases, where the replaced arm keeps the value at 1); and it is
monotonic non-decreasing on `[a, b]` and non-increasing on `[b, c]`. -/
theorem trimf_amended (a b c x y : ℚ) :
    (a ≤ b → b ≤ c → trimf x a b c = .ok (trimfRaw x a b c))
    ∧ (a ≤ b → b ≤ c → trimfRaw b a b c = 1)
    ∧ (a < b → x ≤ a → trimfRaw x a b c = 0)
    ∧ (b < c → c ≤ x → trimfRaw x a b c = 0)
    ∧ (a ≤ x → x ≤ y → y ≤ b → b ≤ c → trimfRaw x a b c ≤ trimfRaw y a b c)
    ∧ (a ≤ b → b ≤ x → x ≤ y → y ≤ c → trimfRaw y a b c ≤ trimfRaw x a b c) := by
  refine ⟨?_, ?_, ?_, ?_, ?_, ?_⟩
  · intro hab hbc
    simp [trimf, hab, hbc]
  · intro hab hbc
    rw [trimfRaw, npMin_eq_min]
    have hl : (if b - a = 0 then (1 : ℚ) else (b - a) / (b - a)) = 1 := by
      split_ifs with h
      · rfl
      · exact div_self h
    have hr : (if c - b = 0 then (1 : ℚ) else (c - b) / (c - b)) = 1 := by
      split_ifs with h
      · rfl
      · exact div_self h
    rw [hl, hr, min_self, npClip01_eq]
    rw [max_eq_left zero_le_one, min_self]
  · intro hab hx
    have hba : b - a ≠ 0 := sub_ne_zero.2 (ne_of_gt hab)
    have hl : (x - a) / (b - a) ≤ 0 :=
      div_nonpos_of_nonpos_of_nonneg (sub_nonpos.2 hx) (le_of_lt (sub_pos.2 hab))
    rw [trimfRaw, npMin_eq_min]
    apply npClip01_nonpos
    rw [if_neg hba]
    exact le_trans (min_le_left _ _) hl
  · intro hbc hx
    have hcb : c - b ≠ 0 := sub_ne_zero.2 (ne_of_gt hbc)
    have hr : (c - x) / (c - b) ≤ 0 :=
      div_nonpos_of_nonpos_of_nonneg (sub_nonpos.2 hx) (le_of_lt (sub_pos.2 hbc))
    rw [trimfRaw, npMin_eq_min]
    apply npClip01_nonpos
    rw [if_neg hcb]
    exact le_trans (min_le_right _ _) hr
  · intro hax hxy hyb hbc
    rw [trimfRaw_eq_left (le_trans hxy hyb) hbc, trimfRaw_eq_left hyb hbc]
    apply npClip01_mono
    split_ifs with h
    · exact le_rfl
    · have hab : a ≤ b := le_trans hax (le_trans hxy hyb)
      have hba : 0 < b - a := lt_of_le_of_ne (sub_nonneg.2 hab) (Ne.symm h)
      exact (div_le_div_iff_of_pos_right hba).2 (sub_le_sub_right hxy a)
  · intro hab hbx hxy hyc
    rw [trimfRaw_eq_right hab hbx, trimfRaw_eq_right hab (le_trans hbx hxy)]
    apply npClip01_mono
    split_ifs with h
    · exact le_rfl
    · have hbc : b ≤ c := le_trans hbx (le_trans hxy hyc)
      have hcb : 0 < c - b := lt_of_le_of_ne (sub_nonneg.2 hbc) (Ne.symm h)
      exact (div_le_div_iff_of_pos_right hcb).2 (sub_le_sub_left hxy c)

/-- C4 witness: the amended triangular-membership facts at the concrete
parameters `(a, b, c) = (0, 1, 2)`. -/
theorem trimf_amended_witness :
    trimf (1/4) 0 1 2 = .ok (trimfRaw (1/4) 0 1 2)
    ∧ trimfRaw 1 0 1 2 = 1
    ∧ trimfRaw (-1) 0 1 2 = 0
    ∧ trimfRaw (5/2) 0 1 2 = 0
    ∧ trimfRaw (1/4) 0 1 2 ≤ trimfRaw (1/2) 0 1 2
    ∧ trimfRaw (3/2) 0 1 2 ≤ trimfRaw (5/4) 0 1 2 := by
  refine ⟨?_, ?_, ?_, ?_, ?_, ?_⟩
  · apply (trimf_amended 0 1 2 (1/4) 0).1 <;> norm_num
  · apply (trimf_amended 0 1 2 0 0).2.1 <;> norm_num
  · apply (trimf_amended 0 1 2 (-1) 0).2.2.1 <;> norm_num
  · apply (trimf_amended 0 1 2 (5/2) 0).2.2.2.1 <;> norm_num
  · apply (trimf_amended 0 1 2 (1/4) (1/2)).2.2.2.2.1 <;> norm_num
  · apply (trimf_amended 0 1 2 (5/4) (3/2)).2.2.2.2.2 <;> norm_num

/-- C5: evaluating `FuzzyVariable.dof` on the unregistered set name
`"missing"` raises `AttributeError` for `_name` (the f-string of the
intended `ValueError` evaluates the non-existent attribute `self._name`),
not a descriptive not-found error naming the offending set. -/
theorem dof_missing_raises_attribute_error :
    FuzzyVariable.dof eVar "missing" 0 = .error (.attributeError "_name") := rfl

/-- The membership function of an `Except`-wrapped fuzzy set at a point,
`none` when construction itself failed. -/
def mfAt (e : Except PyErr FuzzySet) (x : ℚ) : Option (Except PyErr ℚ) :=
  e.toOption.map fun fs => fs.mf x

/-- C6 counterexample: `FuzzySet.triangular("t", 5, 3, 1)` has malformed
shape parameters (`a > b > c`) yet construction succeeds; the validation
failure (`AssertionError` from `trimf`) only surfaces when the membership
function is evaluated. -/
theorem triangular_malformed_constructs :
    exceptOk (FuzzySet.triangular "t" 5 3 1) = true
    ∧ mfAt (FuzzySet.triangular "t" 5 3 1) 0 = some (.error .assertionError)
    ∧ ¬ ((5 : ℚ) ≤ 3 ∧ (3 : ℚ) ≤ 1) := by
  refine ⟨rfl, ?_, by norm_num⟩
  show some (trimf 0 5 3 1) = some (.error .assertionError)
  norm_num [trimf]

/-- C6 amended: the factory constructors validate only the name; malformed
shape parameters are silently captured in the closure, construction returns
the fuzzy set, and the validation error (`AssertionError` for `triangular`,
`ValueError` for `trapezoidal`) is raised only when the membership function
is evaluated. -/
theorem factory_validation_deferred (name : String) (a b c d x : ℚ) :
    (¬(a ≤ b ∧ b ≤ c) →
      FuzzySet.triangular name a b c = .ok ⟨name, fun y => trimf y a b c⟩
      ∧ ∀ fs, FuzzySet.triangular name a b c = .ok fs →
          fs.mf x = .error .assertionError)
    ∧ (¬(a ≤ b ∧ b ≤ c ∧ c ≤ d) →
      FuzzySet.trapezoidal name a b c d = .ok ⟨name, fun y => trapmf y a b c d⟩
      ∧ ∀ fs, FuzzySet.trapezoidal name a b c d = .ok fs →
          fs.mf x = .error (.valueError trapmfParamMsg)) := by
  constructor
  · intro h
    refine ⟨rfl, ?_⟩
    intro fs hfs
    cases hfs
    show trimf x a b c = .error .assertionError
    rw [trimf, if_neg h]
  · intro h
    refine ⟨rfl, ?_⟩
    intro fs hfs
    cases hfs
    show trapmf x a b c d = .error (.valueError trapmfParamMsg)
    rw [trapmf, if_neg h]

/-- C6 witness: the deferred-validation behaviour at the concrete malformed
parameters `(5, 3, 1)` and `(0, 3, 2, 1)`. -/
theorem factory_validation_deferred_witness :
    (FuzzySet.triangular "t" 5 3 1 = .ok ⟨"t", fun y => trimf y 5 3 1⟩
      ∧ ∀ fs, FuzzySet.triangular "t" 5 3 1 = .ok fs →
          fs.mf 0 = .error .assertionError)
    ∧ (FuzzySet.trapezoidal "t" 0 3 2 1 = .ok ⟨"t", fun y => trapmf y 0 3 2 1⟩
      ∧ ∀ fs, FuzzySet.trapezoidal "t" 0 3 2 1 = .ok fs →
          fs.mf 0 = .error (.valueError trapmfParamMsg)) := by
  constructor
  · apply (factory_validation_deferred "t" 5 3 1 0 0).1
    norm_num
  · apply (factory_validation_deferred "t" 0 3 2 1 0).2
    norm_num

theorem except_bind_ok {ε α β : Type} (a : α) (f : α → Except ε β) :
    ((Except.ok a : Except ε α) >>= f) = f a := rfl

theorem except_bind_error {ε α β : Type} (e : ε) (f : α → Except ε β) :
    ((Except.error e : Except ε α) >>= f) = .error e := rfl

theorem except_map_ok {ε α β : Type} (a : α) (f : α → β) :
    (Except.ok a : Except ε α).map f = .ok (f a) := rfl

theorem except_map_error {ε α β : Type} (e : ε) (f : α → β) :
    (Except.error e : Except ε α).map f = .error e := rfl

/-- A successful `FuzzyRule.eval` returns exactly the stored consequent
variable and fuzzy-set name. -/
theorem rule_eval_consequent {r : FuzzyRule} {inputs : List (String × ℚ)}
    {mode : String} {cv : FuzzyVariable} {cs : String} {d : ℚ}
    (h : r.eval inputs mode = .ok (cv, cs, d)) : r.consequent = some (cv, cs) := by
  unfold FuzzyRule.eval at h
  cases hc : r.consequent with
  | none => rw [hc] at h; cases h
  | some p =>
      obtain ⟨cvar, cfs⟩ := p
      rw [hc] at h
      dsimp only at h
      by_cases he : r.antecedents.isEmpty = true
      · rw [if_pos he] at h; cases h
      · rw [if_neg he] at h
        cases hf : FuzzyRule.evalFold inputs mode r.antecedents 1 with
        | error e => rw [hf, except_bind_error] at h; cases h
        | ok deg =>
            rw [hf, except_bind_ok] at h
            cases h
            rfl

/-- The degree map returned by `FIS.eval` never mentions a set name that is
not the consequent set of some registered rule; keys present in the result
either were present in the accumulator or come from a rule's consequent. -/
theorem evalLoop_ok_keys (inputs : List (String × ℚ)) (mode : String) :
    ∀ (rs : List (String × FuzzyRule)) (acc m : List (String × ℚ)),
      FIS.evalLoop inputs mode rs acc = .ok m → ∀ s, (dictGet m s).isSome = true →
      (dictGet acc s).isSome = true
      ∨ s ∈ rs.filterMap fun nr => nr.2.consequent.map fun q => q.2 := by
  intro rs
  induction rs with
  | nil =>
      intro acc m h s hs
      simp only [FIS.evalLoop] at h
      cases h
      exact Or.inl hs
  | cons hd rest ih =>
      obtain ⟨rn, r⟩ := hd
      intro acc m h s hs
      simp only [FIS.evalLoop] at h
      cases hr : r.eval inputs mode with
      | error e => rw [hr, except_bind_error] at h; cases h
      | ok t =>
          obtain ⟨cv, cs, d⟩ := t
          have hcons : r.consequent = some (cv, cs) := rule_eval_consequent hr
          have hhead : (fun nr : String × FuzzyRule =>
              Option.map (fun q : FuzzyVariable × String => q.2) nr.2.consequent) (rn, r)
              = some cs := by simp [hcons]
          rw [hr, except_bind_ok] at h
          have key : ∀ (q : ℚ), FIS.evalLoop inputs mode rest (dictSet acc cs q) = .ok m →
              (dictGet acc s).isSome = true
              ∨ s ∈ List.filterMap (fun nr : String × FuzzyRule =>
                  Option.map (fun q : FuzzyVariable × String => q.2) nr.2.consequent)
                  ((rn, r) :: rest) := by
            intro q hq
            rcases ih _ _ hq s hs with hacc | hmem
            · rw [dictGet_dictSet] at hacc
              by_cases hcs : cs = s
              · subst hcs
                exact Or.inr (List.mem_filterMap.mpr ⟨(rn, r), List.mem_cons_self _ _, hhead⟩)
              · rw [if_neg hcs] at hacc
                exact Or.inl hacc
            · obtain ⟨a, ha, hfa⟩ := List.mem_filterMap.mp hmem
              exact Or.inr (List.mem_filterMap.mpr ⟨a, List.mem_cons_of_mem _ ha, hfa⟩)
          split at h
          · exact key _ h
          · split at h
            · exact key _ h
            · cases h

/-- If every registered rule fires with degree exactly 0 (and every
accumulator entry is 0), the mandami rule loop leaves every aggregated
degree at 0: a fired-at-zero consequent set stays in the map with value 0. -/
theorem evalLoop_all_zero (inputs : List (String × ℚ)) :
    ∀ (rs : List (String × FuzzyRule)) (acc m : List (String × ℚ)),
      (∀ nr ∈ rs, ∀ cv : FuzzyVariable, ∀ cs : String, ∀ d : ℚ,
        (nr : String × FuzzyRule).2.eval inputs "mandami" = .ok (cv, cs, d) → d = 0) →
      (∀ p ∈ acc, (p : String × ℚ).2 = 0) →
      FIS.evalLoop inputs "mandami" rs acc = .ok m → ∀ p ∈ m, (p : String × ℚ).2 = 0 := by
  intro rs
  induction rs with
  | nil =>
      intro acc m _ hacc h
      simp only [FIS.evalLoop] at h
      cases h
      exact hacc
  | cons hd rest ih =>
      obtain ⟨rn, r⟩ := hd
      intro acc m hz hacc h
      simp only [FIS.evalLoop] at h
      cases hr : r.eval inputs "mandami" with
      | error e => rw [hr, except_bind_error] at h; cases h
      | ok t =>
          obtain ⟨cv, cs, d⟩ := t
          have hd0 : d = 0 := hz (rn, r) (List.mem_cons_self _ _) cv cs d hr
          rw [hr, except_bind_ok] at h
          simp only [reduceIte] at h
          refine ih _ _ (fun nr hnr => hz nr (List.mem_cons_of_mem _ hnr)) ?_ h
          refine @dictSet_forall ℚ (fun q => q = 0) acc cs _ hacc ?_
          subst hd0
          have hold : ((dictGet acc cs).getD (0 : ℚ)) = 0 :=
            @dictGet_getD ℚ (fun q => q = 0) acc cs 0 hacc rfl
          rw [hold]
          simp [npMax]

/-- On an empty degrees dict the aggregated curve stays identically zero, so
centroid defuzzification always raises the zero-denominator `ValueError`. -/
theorem defuzzify_empty_zero_denominator (v : FuzzyVariable) (step : ℚ) :
    v.defuzzify [] "centroid" "mandami" step = .error (.valueError zeroDenomMsg) := by
  unfold FuzzyVariable.defuzzify
  rw [if_pos (Or.inl rfl)]
  have hagg : v.aggCurve [] "mandami" step
      = .ok ((arange v.interval.1 v.interval.2 step).map fun x => (x, 0)) := rfl
  rw [hagg, except_bind_ok]
  have hzf : ((fun p : ℚ × ℚ => p.2) ∘ fun x : ℚ => (x, (0 : ℚ))) = fun _ => (0 : ℚ) := rfl
  have hsum : ∀ l : List ℚ, (l.map fun _ => (0 : ℚ)).sum = 0 := by
    intro l
    induction l with
    | nil => simp
    | cons x xs ih => simp [ih]
  have hden : ((((arange v.interval.1 v.interval.2 step).map fun x => (x, (0 : ℚ))).map
      fun p => p.2).sum) * step = 0 := by
    rw [List.map_map, hzf, hsum, zero_mul]
  simp only [reduceIte, hden]

/-- C1 counterexample: in the FIS with the single rule
`e IS negativo -> Du IS muy alta`, the input `e = 0.8` gives the rule firing
degree 0 (`negativo.dof(0.8) = 0`), yet `FIS.eval` returns the NON-empty
degree map `{"muy alta": 0}`: the never-positively-fired consequent set is
present with degree 0, not absent, and the map is not empty. -/
theorem fis_eval_keeps_zero_degree_counterexample :
    evalMap (FIS.eval fisNeg [("e", 4/5)] "mandami") = .ok [("muy alta", 0)]
    ∧ ([("muy alta", (0 : ℚ))] : List (String × ℚ)) ≠ [] := by
  constructor
  · norm_num [evalMap, FIS.eval, FIS.evalLoop, FuzzyRule.eval, FuzzyRule.evalFold,
      FuzzyVariable.dof, FuzzySet.dof, fisNeg, ruleNegativo, eVar, duVar, fsNegativo,
      dictGet, dictSet, trapmf, trapmfRaw, npClip01, npMin, npMax, Except.map,
      Except.instMonad, Except.bind]
  · simp

/-- C1 amended: (i) every key of the degree map returned by `FIS.eval` is
the consequent set name of some registered rule (sets not named by any rule
are absent); (ii) in mandami mode, when every registered rule fires with
degree 0 the returned map binds every present set to 0 (it is empty only
when no rules are registered, since a rule firing at 0 still inserts its
consequent set at 0); (iii) `defuzzify` of the empty degree map with the
centroid method always raises the zero-denominator `ValueError` rather than
returning 0. -/
theorem fis_eval_zero_degrees_amended :
    (∀ (fis : FIS) (inputs : List (String × ℚ)) (mode : String) (v : FuzzyVariable)
        (m : List (String × ℚ)) (s : String),
      fis.eval inputs mode = .ok (v, m) → (dictGet m s).isSome = true →
      s ∈ fis.rules.filterMap fun nr => nr.2.consequent.map fun q => q.2)
    ∧ (∀ (fis : FIS) (inputs : List (String × ℚ)) (v : FuzzyVariable)
        (m : List (String × ℚ)),
      fis.eval inputs "mandami" = .ok (v, m) →
      (∀ nr ∈ fis.rules, ∀ cv : FuzzyVariable, ∀ cs : String, ∀ d : ℚ,
        (nr : String × FuzzyRule).2.eval inputs "mandami" = .ok (cv, cs, d) → d = 0) →
      ∀ p ∈ m, (p : String × ℚ).2 = 0)
    ∧ (∀ (v : FuzzyVariable) (step : ℚ),
      v.defuzzify [] "centroid" "mandami" step = .error (.valueError zeroDenomMsg)) := by
  refine ⟨?_, ?_, defuzzify_empty_zero_denominator⟩
  · intro fis inputs mode v m s h hs
    unfold FIS.eval at h
    cases hl : FIS.evalLoop inputs mode fis.rules [] with
    | error e => rw [hl, except_map_error] at h; cases h
    | ok m' =>
        rw [hl, except_map_ok] at h
        cases h
        rcases evalLoop_ok_keys inputs mode fis.rules [] _ hl s hs with habs | hmem
        · simp [dictGet] at habs
        · exact hmem
  · intro fis inputs v m h hz
    unfold FIS.eval at h
    cases hl : FIS.evalLoop inputs "mandami" fis.rules [] with
    | error e => rw [hl, except_map_error] at h; cases h
    | ok m' =>
        rw [hl, except_map_ok] at h
        cases h
        exact evalLoop_all_zero inputs fis.rules [] _ hz (by simp) hl

/-- C1 witness: the amended facts at the single-rule FIS `fisNeg` with input
`e = 0.8` (whose only rule fires at degree 0): the key `"muy alta"` of the
result is the rule's consequent set, its aggregated degree is 0, and
centroid defuzzification of an empty map on `Du` raises the
zero-denominator error. -/
theorem fis_eval_zero_degrees_amended_witness :
    "muy alta" ∈ fisNeg.rules.filterMap (fun nr => nr.2.consequent.map fun q => q.2)
    ∧ (("muy alta", (0 : ℚ)) : String × ℚ).2 = 0
    ∧ duVar.defuzzify [] "centroid" "mandami" (1/10) = .error (.valueError zeroDenomMsg) := by
  have heval : FIS.eval fisNeg [("e", 4/5)] "mandami" = .ok (duVar, [("muy alta", 0)]) := by
    norm_num [FIS.eval, FIS.evalLoop, FuzzyRule.eval, FuzzyRule.evalFold,
      FuzzyVariable.dof, FuzzySet.dof, fisNeg, ruleNegativo, eVar, duVar, fsNegativo,
      dictGet, dictSet, trapmf, trapmfRaw, npClip01, npMin, npMax, Except.map,
      Except.instMonad, Except.bind]
  have hrule : ruleNegativo.eval [("e", (4 : ℚ)/5)] "mandami" = .ok (duVar, "muy alta", 0) := by
    norm_num [FuzzyRule.eval, FuzzyRule.evalFold, FuzzyVariable.dof, FuzzySet.dof,
      ruleNegativo, eVar, duVar, fsNegativo, dictGet, trapmf, trapmfRaw, npClip01,
      npMin, npMax, Except.instMonad, Except.bind]
  refine ⟨?_, ?_, fis_eval_zero_degrees_amended.2.2 duVar (1/10)⟩
  · exact fis_eval_zero_degrees_amended.1 fisNeg [("e", 4/5)] "mandami" duVar
      [("muy alta", 0)] "muy alta" heval rfl
  · refine fis_eval_zero_degrees_amended.2.1 fisNeg [("e", 4/5)] duVar
      [("muy alta", 0)] heval ?_ ("muy alta", 0) (by simp)
    intro nr hnr cv cs d hev
    have hnr1 : nr = ("rule1", ruleNegativo) := by simpa [fisNeg] using hnr
    subst hnr1
    rw [hrule] at hev
    cases hev
    rfl

/-- A message names both inference modes when the strings `"mandami"` and
`"larsen"` occur in it. -/
def namesBothModes (msg : String) : Prop :=
  "mandami".toList <:+: msg.toList ∧ "larsen".toList <:+: msg.toList

/-- C2 counterexample: a FIS with no registered rules never reaches the
mode dispatch, so `eval` with the unsupported mode string `"bogus"` returns
normally (the consequent together with an empty map) instead of raising the
`ValueError` naming the two valid modes. -/
theorem eval_bad_mode_no_rules_counterexample :
    FIS.eval fisNoRules [] "bogus" = .ok (duVar, [])
    ∧ ("bogus" ≠ "mandami" ∧ "bogus" ≠ "larsen") :=
  ⟨rfl, by decide⟩

/-- C2 amended: the unsupported-mode `ValueError` (naming both valid modes)
is raised only when at least one rule is registered and its evaluation
reaches the mode dispatch: for a first registered rule that is fully
defined, whose first antecedent has an input value and whose degree of
fulfillment evaluates, an unsupported mode makes `FIS.eval` fail with the
`ValueError` naming `mandami` and `larsen`; with zero registered rules
`FIS.eval` returns successfully without validating the mode. -/
theorem eval_bad_mode_amended (fis : FIS) (inputs : List (String × ℚ)) (mode : String)
    (rn an afs cs : String) (r : FuzzyRule) (rest : List (String × FuzzyRule))
    (cv av : FuzzyVariable) (arest : List (String × FuzzyVariable × String))
    (val dval : ℚ)
    (hrules : fis.rules = (rn, r) :: rest)
    (hcons : r.consequent = some (cv, cs))
    (hants : r.antecedents = (an, av, afs) :: arest)
    (hin : dictGet inputs an = some val)
    (hdof : av.dof afs val = .ok dval)
    (hm1 : mode ≠ "mandami") (hm2 : mode ≠ "larsen") :
    fis.eval inputs mode = .error (.valueError (unsupportedModeMsg mode))
    ∧ namesBothModes (unsupportedModeMsg mode)
    ∧ (∀ fis2 : FIS, fis2.rules = [] → ∀ inputs2 : List (String × ℚ),
        FIS.eval fis2 inputs2 mode = .ok (fis2.consequent, [])) := by
  refine ⟨?_, ?_, ?_⟩
  · have hre : r.eval inputs mode = .error (.valueError (unsupportedModeMsg mode)) := by
      unfold FuzzyRule.eval
      rw [hcons]
      dsimp only
      rw [if_neg (by simp [hants] : ¬r.antecedents.isEmpty = true)]
      have hfold : FuzzyRule.evalFold inputs mode r.antecedents 1
          = .error (.valueError (unsupportedModeMsg mode)) := by
        rw [hants]
        simp only [FuzzyRule.evalFold]
        rw [hin]
        dsimp only
        rw [hdof, except_bind_ok, if_neg hm1, if_neg hm2, except_bind_error]
      rw [hfold, except_bind_error]
    unfold FIS.eval
    rw [hrules]
    simp only [FIS.evalLoop]
    rw [hre, except_bind_error, except_map_error]
  · constructor
    · have hsuf : "mandami".toList <:+: ". Choose mandami or larsen.".toList := by decide
      refine hsuf.trans ?_
      rw [show (unsupportedModeMsg mode).toList
          = ("Unsupported fuzzy inference mode: " ++ mode).toList
            ++ ". Choose mandami or larsen.".toList from rfl]
      exact (List.suffix_append _ _).isInfix
    · have hsuf : "larsen".toList <:+: ". Choose mandami or larsen.".toList := by decide
      refine hsuf.trans ?_
      rw [show (unsupportedModeMsg mode).toList
          = ("Unsupported fuzzy inference mode: " ++ mode).toList
            ++ ". Choose mandami or larsen.".toList from rfl]
      exact (List.suffix_append _ _).isInfix
  · intro fis2 h2 inputs2
    unfold FIS.eval
    rw [h2]
    simp only [FIS.evalLoop]
    rfl

/-- C2 witness: the amended mode-validation facts at the one-rule FIS
`fisNeg` with the unsupported mode string `"bogus"`. -/
theorem eval_bad_mode_amended_witness :
    FIS.eval fisNeg [("e", 4/5)] "bogus" = .error (.valueError (unsupportedModeMsg "bogus"))
    ∧ namesBothModes (unsupportedModeMsg "bogus")
    ∧ (∀ fis2 : FIS, fis2.rules = [] → ∀ inputs2 : List (String × ℚ),
        FIS.eval fis2 inputs2 "bogus" = .ok (fis2.consequent, [])) := by
  have hdof : eVar.dof "negativo" ((4 : ℚ)/5) = .ok 0 := by
    norm_num [FuzzyVariable.dof, FuzzySet.dof, eVar, fsNegativo, dictGet, trapmf,
      trapmfRaw, npClip01, npMin, npMax]
  exact eval_bad_mode_amended fisNeg [("e", 4/5)] "bogus" "rule1" "e" "negativo"
    "muy alta" ruleNegativo [] duVar eVar [] (4/5) 0 rfl rfl rfl rfl hdof
    (by decide) (by decide)

/-- C3: once the aggregated membership curve is built, centroid
defuzzification computes numerator `sum(x*mu)*step` and denominator
`sum(mu)*step`; it raises the zero-denominator `ValueError` exactly when the
denominator is 0, and otherwise returns `numerator / denominator`. -/
theorem centroid_defuzzify_spec (v : FuzzyVariable) (degrees : List (String × ℚ))
    (imode : String) (step : ℚ) (curve : List (ℚ × ℚ))
    (himode : imode = "mandami" ∨ imode = "larsen")
    (hagg : v.aggCurve degrees imode step = .ok curve) :
    (v.defuzzify degrees "centroid" imode step = .error (.valueError zeroDenomMsg)
      ↔ (curve.map fun p => p.2).sum * step = 0)
    ∧ ((curve.map fun p => p.2).sum * step ≠ 0 →
      v.defuzzify degrees "centroid" imode step =
        .ok ((curve.map fun p => p.1 * p.2).sum * step
          / ((curve.map fun p => p.2).sum * step))) := by
  have hif : v.defuzzify degrees "centroid" imode step =
      if (curve.map fun p => p.2).sum * step = 0 then
        (.error (.valueError zeroDenomMsg) : Except PyErr ℚ)
      else .ok ((curve.map fun p => p.1 * p.2).sum * step
          / ((curve.map fun p => p.2).sum * step)) := by
    unfold FuzzyVariable.defuzzify
    rw [if_pos himode, hagg, except_bind_ok]
    simp only [reduceIte]
  constructor
  · rw [hif]
    split_ifs with h
    · simp [h]
    · simp [h]
  · intro h
    rw [hif, if_neg h]

/-- The concrete sampling `np.arange(0, 1, 0.5) = [0, 0.5]` used by the
witnesses. -/
theorem arange_0_1_half : arange 0 1 (1/2) = [0, 1/2] := by
  norm_num [arange]
  norm_num [show Int.toNat 2 = 2 from rfl, List.range_succ]

/-- The aggregated curve of `vSmall` for degrees `{s: 1}` in mandami mode at
step `0.5`. -/
theorem vSmall_aggCurve :
    vSmall.aggCurve [("s", 1)] "mandami" (1/2) = .ok [(0, 0), (1/2, 1)] := by
  have h := arange_0_1_half
  norm_num [FuzzyVariable.aggCurve, aggLoop, vecM, vSmall, dictGet, h, trimf, trimfRaw,
    npClip01, npMin, npMax, Except.map, Except.instMonad, Except.bind]

/-- C3 witness: the centroid branch facts at `vSmall` with degrees `{s: 1}`,
step `0.5` and aggregated curve `[(0, 0), (0.5, 1)]`. -/
theorem centroid_defuzzify_spec_witness :
    (vSmall.defuzzify [("s", 1)] "centroid" "mandami" (1/2)
        = .error (.valueError zeroDenomMsg)
      ↔ (([((0 : ℚ), (0 : ℚ)), (1/2, 1)].map fun p => p.2).sum * (1/2 : ℚ)) = 0)
    ∧ ((([((0 : ℚ), (0 : ℚ)), (1/2, 1)].map fun p => p.2).sum * (1/2 : ℚ)) ≠ 0 →
      vSmall.defuzzify [("s", 1)] "centroid" "mandami" (1/2) =
        .ok ((([((0 : ℚ), (0 : ℚ)), (1/2, 1)].map fun p => p.1 * p.2).sum * (1/2 : ℚ))
          / (([((0 : ℚ), (0 : ℚ)), (1/2, 1)].map fun p => p.2).sum * (1/2 : ℚ)))) :=
  centroid_defuzzify_spec vSmall [("s", 1)] "mandami" (1/2) [(0, 0), (1/2, 1)]
    (Or.inl rfl) vSmall_aggCurve

theorem vecM_ok_length {α β : Type} {f : α → Except PyErr β} :
    ∀ {l : List α} {out : List β}, vecM f l = .ok out → out.length = l.length := by
  intro l
  induction l with
  | nil =>
      intro out h
      cases h
      rfl
  | cons x xs ih =>
      intro out h
      simp only [vecM] at h
      cases hfx : f x with
      | error e => rw [hfx, except_bind_error] at h; cases h
      | ok y =>
          rw [hfx, except_bind_ok] at h
          cases hrest : vecM f xs with
          | error e => rw [hrest, except_bind_error] at h; cases h
          | ok ys =>
              rw [hrest, except_bind_ok] at h
              cases h
              simp [ih hrest]

theorem aggLoop_ok_length (v : FuzzyVariable) (tn tc : ℚ → ℚ → ℚ) :
    ∀ (ds : List (String × ℚ)) (cur out : List (ℚ × ℚ)),
      aggLoop v tn tc ds cur = .ok out → out.length = cur.length := by
  intro ds
  induction ds with
  | nil =>
      intro cur out h
      cases h
      rfl
  | cons hd rest ih =>
      obtain ⟨n, d⟩ := hd
      intro cur out h
      simp only [aggLoop] at h
      cases hfs : dictGet v.fuzzysets n with
      | none => rw [hfs] at h; cases h
      | some fs =>
          rw [hfs] at h
          dsimp only at h
          split at h
          · cases h
          · cases hv : vecM (fun p => (fs.mf p.1).map fun m => (p.1, tc p.2 (tn m d))) cur with
            | error e => rw [hv, except_bind_error] at h; cases h
            | ok cur2 =>
                rw [hv, except_bind_ok] at h
                rw [ih cur2 out h]
                exact vecM_ok_length hv

theorem arange_length_pos {a b step : ℚ} (hab : a < b) (hstep : 0 < step) :
    0 < (arange a b step).length := by
  unfold arange
  simp only [List.length_map, List.length_range]
  have hq : 0 < (b - a) / step := div_pos (sub_pos.2 hab) hstep
  have h1 : (0 : ℤ) < ⌈(b - a) / step⌉ := Int.ceil_pos.2 hq
  omega

theorem foldl_npMax_mem : ∀ (l : List ℚ) (q : ℚ),
    l.foldl npMax q = q ∨ l.foldl npMax q ∈ l := by
  intro l
  induction l with
  | nil => intro q; exact Or.inl rfl
  | cons x xs ih =>
      intro q
      rw [List.foldl_cons]
      rcases ih (npMax q x) with h | h
      · rw [h]
        unfold npMax
        split_ifs
        · exact Or.inr (List.mem_cons_self _ _)
        · exact Or.inl rfl
      · exact Or.inr (List.mem_cons_of_mem _ h)

/-- The `averageMax` branch of `defuzzify` on a non-empty aggregated curve,
as a single closed-form expression. -/
theorem defuzzify_averageMax_eq (v : FuzzyVariable) (degrees : List (String × ℚ))
    (imode : String) (step : ℚ) (p0 : ℚ × ℚ) (prest : List (ℚ × ℚ))
    (himode : imode = "mandami" ∨ imode = "larsen")
    (hagg : v.aggCurve degrees imode step = .ok (p0 :: prest)) :
    v.defuzzify degrees "averageMax" imode step =
      (if (((p0 :: prest).filter fun p =>
            (prest.map fun p => p.2).foldl npMax p0.2 - 1/10 < p.2).map fun p => p.1) = [] then
        .error (.valueError noMaxMsg)
      else .ok ((((p0 :: prest).filter fun p =>
            (prest.map fun p => p.2).foldl npMax p0.2 - 1/10 < p.2).map fun p => p.1).sum
          / ((((p0 :: prest).filter fun p =>
            (prest.map fun p => p.2).foldl npMax p0.2 - 1/10 < p.2).map fun p => p.1).length : ℚ))) := by
  unfold FuzzyVariable.defuzzify
  rw [if_pos himode, hagg, except_bind_ok]
  rw [if_neg (by decide : ¬("averageMax" : String) = "centroid")]
  simp only [reduceIte]

/-- C10: whenever the sampled domain is non-empty (`a < b`, `step > 0`) and
the aggregated curve is built, `averageMax` defuzzification never raises its
"no maximum found" error: the band `mu > max(mu) - 0.1` always contains a
sample attaining the maximum, so the call returns normally. -/
theorem averageMax_never_no_max (v : FuzzyVariable) (degrees : List (String × ℚ))
    (imode : String) (step a b : ℚ) (curve : List (ℚ × ℚ))
    (hiv : v.interval = (a, b)) (hab : a < b) (hstep : 0 < step)
    (himode : imode = "mandami" ∨ imode = "larsen")
    (hagg : v.aggCurve degrees imode step = .ok curve) :
    exceptOk (v.defuzzify degrees "averageMax" imode step) = true
    ∧ v.defuzzify degrees "averageMax" imode step ≠ .error (.valueError noMaxMsg) := by
  have hagg2 := hagg
  unfold FuzzyVariable.aggCurve at hagg2
  rw [hiv] at hagg2
  have hl := aggLoop_ok_length v _ _ degrees _ curve hagg2
  have hpos : 0 < curve.length := by
    rw [hl, List.length_map]
    exact arange_length_pos hab hstep
  cases hc : curve with
  | nil => rw [hc] at hpos; simp at hpos
  | cons p0 prest =>
      rw [hc] at hagg
      have hdef := defuzzify_averageMax_eq v degrees imode step p0 prest himode hagg
      have hex : ∃ pm ∈ p0 :: prest,
          (pm : ℚ × ℚ).2 = (prest.map fun p => p.2).foldl npMax p0.2 := by
        rcases foldl_npMax_mem (prest.map fun p => p.2) p0.2 with h | h
        · exact ⟨p0, List.mem_cons_self _ _, h.symm⟩
        · obtain ⟨pm, hpm, hval⟩ := List.mem_map.1 h
          exact ⟨pm, List.mem_cons_of_mem _ hpm, hval⟩
      obtain ⟨pm, hpmmem, hpmval⟩ := hex
      have hfil : pm ∈ (p0 :: prest).filter
          fun p => (prest.map fun p => p.2).foldl npMax p0.2 - 1/10 < p.2 := by
        refine List.mem_filter.mpr ⟨hpmmem, ?_⟩
        rw [decide_eq_true_eq, hpmval]
        linarith
      have hxne : (((p0 :: prest).filter
          fun p => (prest.map fun p => p.2).foldl npMax p0.2 - 1/10 < p.2).map
            fun p => p.1) ≠ [] := by
        simp only [ne_eq, List.map_eq_nil_iff]
        intro hc2
        rw [hc2] at hfil
        simp at hfil
      rw [hdef, if_neg hxne]
      exact ⟨rfl, by simp⟩

/-- C10 witness: `averageMax` defuzzification of `vSmall` with degrees
`{s: 1}` at step `0.5` returns normally. -/
theorem averageMax_never_no_max_witness :
    exceptOk (vSmall.defuzzify [("s", 1)] "averageMax" "mandami" (1/2)) = true
    ∧ vSmall.defuzzify [("s", 1)] "averageMax" "mandami" (1/2)
      ≠ .error (.valueError noMaxMsg) :=
  averageMax_never_no_max vSmall [("s", 1)] "mandami" (1/2) 0 1 [(0, 0), (1/2, 1)]
    rfl (by norm_num) (by norm_num) (Or.inl rfl) vSmall_aggCurve

/-- The degree-weighted sum of one RGB channel (the spec's
`channel = Σ(color[c]·normalized_degree)` with degrees normalized by
`total`); an absent color contributes via the `(0,0,0)` default, which the
theorems below rule out by hypothesis. -/
def colorChannelSum (qv : FuzzyVariableQualitative) (degrees : List (String × ℚ))
    (total : ℚ) (ch : ℤ × ℤ × ℤ → ℤ) : ℚ :=
  (degrees.map fun p =>
    ((ch ((dictGet qv.colors p.1).getD (0, 0, 0)) : ℤ) : ℚ) * (p.2 / total)).sum

theorem colorLoop_formula (qv : FuzzyVariableQualitative) (total : ℚ) :
    ∀ (l : List (String × ℚ)) (r g b : ℚ),
      (∀ p ∈ l, (dictGet qv.colors (p : String × ℚ).1).isSome = true) →
      colorLoop qv total l r g b =
        .ok (r + colorChannelSum qv l total (fun t => t.1),
             g + colorChannelSum qv l total (fun t => t.2.1),
             b + colorChannelSum qv l total (fun t => t.2.2)) := by
  intro l
  induction l with
  | nil =>
      intro r g b _
      simp [colorLoop, colorChannelSum]
  | cons hd rest ih =>
      obtain ⟨n, d⟩ := hd
      intro r g b hcol
      have hn := hcol (n, d) (List.mem_cons_self _ _)
      cases hcn : dictGet qv.colors n with
      | none => rw [hcn] at hn; simp at hn
      | some col =>
          obtain ⟨cr, cg, cb⟩ := col
          simp only [colorLoop]
          rw [hcn]
          dsimp only
          rw [ih _ _ _ fun p hp => hcol p (List.mem_cons_of_mem _ hp)]
          simp only [colorChannelSum, List.map_cons, List.sum_cons, hcn, Option.getD_some]
          have e1 : ∀ x y s : ℚ, x + y + s = x + (y + s) := by intro x y s; ring
          rw [e1, e1, e1]

theorem colorLoop_cases (qv : FuzzyVariableQualitative) (total : ℚ) :
    ∀ (l : List (String × ℚ)) (r g b : ℚ),
      (∃ t, colorLoop qv total l r g b = .ok t)
      ∨ colorLoop qv total l r g b = .error (.attributeError "_name") := by
  intro l
  induction l with
  | nil => intro r g b; exact Or.inl ⟨_, rfl⟩
  | cons hd rest ih =>
      obtain ⟨n, d⟩ := hd
      intro r g b
      simp only [colorLoop]
      cases hcn : dictGet qv.colors n with
      | none => exact Or.inr rfl
      | some col =>
          obtain ⟨cr, cg, cb⟩ := col
          dsimp only
          exact ih _ _ _

/-- C8: `defuzzify_color` raises the zero-total `ValueError` exactly when
the total degree is 0; for a positive total with every key colored it
returns the degree-weighted RGB average (degrees normalized to sum 1,
channels truncated toward zero); and the two-label example with colors
`(255,0,0)`, `(0,0,255)` at degrees `{A: 1/2, B: 1/2}` yields `(127,0,127)`
(truncation, not rounding). -/
theorem defuzzify_color_spec (qv : FuzzyVariableQualitative)
    (degrees : List (String × ℚ)) :
    (qv.defuzzifyColor degrees = .error (.valueError zeroTotalMsg)
      ↔ (degrees.map fun p => p.2).sum = 0)
    ∧ (0 < (degrees.map fun p => p.2).sum →
      (∀ p ∈ degrees, (dictGet qv.colors (p : String × ℚ).1).isSome = true) →
      qv.defuzzifyColor degrees =
        .ok (pyInt (colorChannelSum qv degrees ((degrees.map fun p => p.2).sum) fun t => t.1),
             pyInt (colorChannelSum qv degrees ((degrees.map fun p => p.2).sum) fun t => t.2.1),
             pyInt (colorChannelSum qv degrees ((degrees.map fun p => p.2).sum) fun t => t.2.2)))
    ∧ qvEx.defuzzifyColor [("A", 1/2), ("B", 1/2)] = .ok (127, 0, 127) := by
  refine ⟨?_, ?_, ?_⟩
  · unfold FuzzyVariableQualitative.defuzzifyColor
    by_cases h : (degrees.map fun p => p.2).sum = 0
    · rw [if_pos h]
      simp [h]
    · rw [if_neg h]
      rcases colorLoop_cases qv ((degrees.map fun p => p.2).sum) degrees 0 0 0 with
        ⟨t, ht⟩ | herr
      · rw [ht, except_bind_ok]
        simp [h]
      · rw [herr, except_bind_error]
        simp [h, zeroTotalMsg]
  · intro hpos hcol
    unfold FuzzyVariableQualitative.defuzzifyColor
    rw [if_neg (by exact fun hc => absurd hc (ne_of_gt hpos))]
    rw [colorLoop_formula qv _ degrees 0 0 0 hcol, except_bind_ok]
    simp [zero_add]
  · norm_num [FuzzyVariableQualitative.defuzzifyColor, colorLoop, qvEx, dictGet, pyInt,
      Except.bind, Except.instMonad, show ¬("A" : String) = "B" from by decide]
    decide

/-- C8 witness: the color-defuzzification facts at the concrete qualitative
variable `qvEx` with degrees `{A: 1/2, B: 1/2}`. -/
theorem defuzzify_color_spec_witness :
    (qvEx.defuzzifyColor [("A", 1/2), ("B", 1/2)] = .error (.valueError zeroTotalMsg)
      ↔ (([("A", (1 : ℚ)/2), ("B", 1/2)].map fun p => p.2).sum = 0))
    ∧ qvEx.defuzzifyColor [("A", 1/2), ("B", 1/2)] =
        .ok (pyInt (colorChannelSum qvEx [("A", 1/2), ("B", 1/2)]
              (([("A", (1 : ℚ)/2), ("B", 1/2)].map fun p => p.2).sum) fun t => t.1),
             pyInt (colorChannelSum qvEx [("A", 1/2), ("B", 1/2)]
              (([("A", (1 : ℚ)/2), ("B", 1/2)].map fun p => p.2).sum) fun t => t.2.1),
             pyInt (colorChannelSum qvEx [("A", 1/2), ("B", 1/2)]
              (([("A", (1 : ℚ)/2), ("B", 1/2)].map fun p => p.2).sum) fun t => t.2.2)) := by
  constructor
  · exact (defuzzify_color_spec qvEx [("A", 1/2), ("B", 1/2)]).1
  · refine (defuzzify_color_spec qvEx [("A", 1/2), ("B", 1/2)]).2.1 (by norm_num) ?_
    intro p hp
    rcases (by simpa using hp : p = ("A", (1 : ℚ)/2) ∨ p = ("B", (1 : ℚ)/2)) with h | h <;>
      subst h <;> rfl

theorem evalFold_bounds (inputs : List (String × ℚ)) (mode : String) :
    ∀ (ants : List (String × FuzzyVariable × String)) (acc res : ℚ),
      (∀ ant ∈ ants, ∀ val d : ℚ,
        FuzzyVariable.dof (ant : String × FuzzyVariable × String).2.1 ant.2.2 val = .ok d →
        0 ≤ d ∧ d ≤ 1) →
      0 ≤ acc → acc ≤ 1 →
      FuzzyRule.evalFold inputs mode ants acc = .ok res → 0 ≤ res ∧ res ≤ 1 := by
  intro ants
  induction ants with
  | nil =>
      intro acc res _ h0 h1 h
      cases h
      exact ⟨h0, h1⟩
  | cons hd rest ih =>
      obtain ⟨vn, var, fsn⟩ := hd
      intro acc res hb h0 h1 h
      simp only [FuzzyRule.evalFold] at h
      cases hin : dictGet inputs vn with
      | none => rw [hin] at h; cases h
      | some val =>
          rw [hin] at h
          dsimp only at h
          cases hdeg : var.dof fsn val with
          | error e => rw [hdeg, except_bind_error] at h; cases h
          | ok degree =>
              rw [hdeg, except_bind_ok] at h
              have hdb : 0 ≤ degree ∧ degree ≤ 1 :=
                hb (vn, var, fsn) (List.mem_cons_self _ _) val degree hdeg
              have hrest : ∀ ant ∈ rest, ∀ val d : ℚ,
                  FuzzyVariable.dof (ant : String × FuzzyVariable × String).2.1
                    ant.2.2 val = .ok d → 0 ≤ d ∧ d ≤ 1 :=
                fun ant hant => hb ant (List.mem_cons_of_mem _ hant)
              by_cases hm : mode = "mandami"
              · rw [if_pos hm, except_bind_ok] at h
                refine ih _ res hrest ?_ ?_ h
                · rw [npMin_eq_min, npMin_eq_min]
                  exact le_min (le_min h0 hdb.1) hdb.1
                · rw [npMin_eq_min]
                  exact le_trans (min_le_right _ _) hdb.2
              · by_cases hm2 : mode = "larsen"
                · rw [if_neg hm, if_pos hm2, except_bind_ok] at h
                  refine ih _ res hrest ?_ ?_ h
                  · rw [npMin_eq_min]
                    exact le_min (mul_nonneg h0 hdb.1) hdb.1
                  · rw [npMin_eq_min]
                    exact le_trans (min_le_right _ _) hdb.2
                · rw [if_neg hm, if_neg hm2, except_bind_error] at h
                  cases h

/-- The firing degree of a successfully evaluated rule lies in the unit
interval, provided every antecedent degree of fulfillment does. -/
theorem rule_eval_degree_bounds {r : FuzzyRule} {inputs : List (String × ℚ)}
    {mode : String} {cv : FuzzyVariable} {cs : String} {d : ℚ}
    (hb : ∀ ant ∈ r.antecedents, ∀ val q : ℚ,
      FuzzyVariable.dof (ant : String × FuzzyVariable × String).2.1 ant.2.2 val = .ok q →
      0 ≤ q ∧ q ≤ 1)
    (h : r.eval inputs mode = .ok (cv, cs, d)) : 0 ≤ d ∧ d ≤ 1 := by
  unfold FuzzyRule.eval at h
  cases hc : r.consequent with
  | none => rw [hc] at h; cases h
  | some p =>
      obtain ⟨cvar, cfs⟩ := p
      rw [hc] at h
      dsimp only at h
      by_cases he : r.antecedents.isEmpty = true
      · rw [if_pos he] at h; cases h
      · rw [if_neg he] at h
        cases hf : FuzzyRule.evalFold inputs mode r.antecedents 1 with
        | error e => rw [hf, except_bind_error] at h; cases h
        | ok deg =>
            rw [hf, except_bind_ok] at h
            cases h
            exact evalFold_bounds inputs mode r.antecedents 1 d hb
              zero_le_one le_rfl hf

theorem evalLoop_bounds (inputs : List (String × ℚ)) (mode : String) :
    ∀ (rs : List (String × FuzzyRule)) (acc m : List (String × ℚ)),
      (∀ nr ∈ rs, ∀ ant ∈ ((nr : String × FuzzyRule).2).antecedents, ∀ val d : ℚ,
        FuzzyVariable.dof (ant : String × FuzzyVariable × String).2.1 ant.2.2 val = .ok d →
        0 ≤ d ∧ d ≤ 1) →
      (∀ p ∈ acc, 0 ≤ (p : String × ℚ).2 ∧ p.2 ≤ 1) →
      FIS.evalLoop inputs mode rs acc = .ok m →
      ∀ p ∈ m, 0 ≤ (p : String × ℚ).2 ∧ p.2 ≤ 1 := by
  intro rs
  induction rs with
  | nil =>
      intro acc m _ hacc h
      cases h
      exact hacc
  | cons hd rest ih =>
      obtain ⟨rn, r⟩ := hd
      intro acc m hz hacc h
      simp only [FIS.evalLoop] at h
      cases hr : r.eval inputs mode with
      | error e => rw [hr, except_bind_error] at h; cases h
      | ok t =>
          obtain ⟨cv, cs, d⟩ := t
          have hdb : 0 ≤ d ∧ d ≤ 1 :=
            rule_eval_degree_bounds (hz (rn, r) (List.mem_cons_self _ _)) hr
          have hrest := fun nr hnr => hz nr (List.mem_cons_of_mem _ hnr)
          have hold : 0 ≤ ((dictGet acc cs).getD 0) ∧ ((dictGet acc cs).getD 0) ≤ 1 :=
            @dictGet_getD ℚ (fun q => 0 ≤ q ∧ q ≤ 1) acc cs 0 hacc ⟨le_rfl, zero_le_one⟩
          rw [hr, except_bind_ok] at h
          split at h
          · refine ih _ _ hrest ?_ h
            refine @dictSet_forall ℚ (fun q => 0 ≤ q ∧ q ≤ 1) acc cs _ hacc ?_
            rw [npMax_eq_max]
            exact ⟨le_trans hdb.1 (le_max_left _ _), max_le hdb.2 hold.2⟩
          · split at h
            · refine ih _ _ hrest ?_ h
              refine @dictSet_forall ℚ (fun q => 0 ≤ q ∧ q ≤ 1) acc cs _ hacc ?_
              constructor
              · nlinarith [hold.1, hold.2, hdb.1, hdb.2]
              · nlinarith [hold.1, hold.2, hdb.1, hdb.2]
            · cases h

/-- C9: if every antecedent membership degree lies in `[0, 1]`, then every
aggregated degree returned by `FIS.eval` lies in `[0, 1]`, in both mandami
mode (min-fold from 1, running max) and larsen mode (product fold,
probabilistic sum). -/
theorem fis_eval_degrees_in_unit (fis : FIS) (inputs : List (String × ℚ))
    (mode : String) (v : FuzzyVariable) (m : List (String × ℚ))
    (hmf : ∀ nr ∈ fis.rules, ∀ ant ∈ ((nr : String × FuzzyRule).2).antecedents,
      ∀ val d : ℚ,
      FuzzyVariable.dof (ant : String × FuzzyVariable × String).2.1 ant.2.2 val = .ok d →
      0 ≤ d ∧ d ≤ 1)
    (h : fis.eval inputs mode = .ok (v, m)) :
    ∀ p ∈ m, 0 ≤ (p : String × ℚ).2 ∧ p.2 ≤ 1 := by
  unfold FIS.eval at h
  cases hl : FIS.evalLoop inputs mode fis.rules [] with
  | error e => rw [hl, except_map_error] at h; cases h
  | ok m2 =>
      rw [hl, except_map_ok] at h
      cases h
      exact evalLoop_bounds inputs mode fis.rules [] _ hmf (by simp) hl

/-- Concrete evaluation of the two-rule FIS `fisTwo` at `e = 0.8` in
mandami mode: `cero` fires at 3/5, `positivo` at 2/5, aggregated by max. -/
theorem fisTwo_eval :
    FIS.eval fisTwo [("e", 4/5)] "mandami" = .ok (duVar, [("media", 3/5)]) := by
  norm_num [FIS.eval, FIS.evalLoop, FuzzyRule.eval, FuzzyRule.evalFold,
    FuzzyVariable.dof, FuzzySet.dof, fisTwo, ruleCero, rulePositivo, eVar, duVar,
    fsNegativo, fsCero, fsPositivo, dictGet, dictSet, trimf, trimfRaw, trapmf,
    trapmfRaw, npClip01, npMin, npMax, Except.map, Except.instMonad, Except.bind,
    show ¬("negativo" : String) = "cero" from by decide,
    show ¬("negativo" : String) = "positivo" from by decide,
    show ¬("cero" : String) = "positivo" from by decide]

/-- C9 witness: the in-unit-interval invariant instantiated at `fisTwo`
with input `e = 0.8`, whose aggregated map is `{media: 3/5}`. -/
theorem fis_eval_degrees_in_unit_witness :
    0 ≤ (("media", (3 : ℚ)/5) : String × ℚ).2
    ∧ (("media", (3 : ℚ)/5) : String × ℚ).2 ≤ 1 := by
  have hdofC : ∀ val d : ℚ, eVar.dof "cero" val = .ok d → 0 ≤ d ∧ d ≤ 1 := by
    intro val d h
    have hg : dictGet eVar.fuzzysets "cero" = some fsCero := by
      simp [eVar, dictGet, show ¬("negativo" : String) = "cero" from by decide]
    unfold FuzzyVariable.dof at h
    rw [hg] at h
    dsimp only at h
    exact trimf_ok_bounds (show trimf val (-2) 0 2 = .ok d from h)
  have hdofP : ∀ val d : ℚ, eVar.dof "positivo" val = .ok d → 0 ≤ d ∧ d ≤ 1 := by
    intro val d h
    have hg : dictGet eVar.fuzzysets "positivo" = some fsPositivo := by
      simp [eVar, dictGet, show ¬("negativo" : String) = "positivo" from by decide,
        show ¬("cero" : String) = "positivo" from by decide]
    unfold FuzzyVariable.dof at h
    rw [hg] at h
    dsimp only at h
    exact trapmf_ok_bounds (show trapmf val 0 2 20 20 = .ok d from h)
  refine fis_eval_degrees_in_unit fisTwo [("e", 4/5)] "mandami" duVar
    [("media", 3/5)] ?_ fisTwo_eval ("media", 3/5) (by simp)
  intro nr hnr ant hant val d hd
  rcases (by simpa [fisTwo] using hnr :
      nr = ("r1", ruleCero) ∨ nr = ("r2", rulePositivo)) with h | h
  · subst h
    have hant2 : ant = ("e", eVar, "cero") := by simpa [ruleCero] using hant
    subst hant2
    exact hdofC val d hd
  · subst h
    have hant2 : ant = ("e", eVar, "positivo") := by simpa [rulePositivo] using hant
    subst hant2
    exact hdofP val d hd

/-- The `(consequent_set_name, firing_degree)` pair a rule contributes in
`FIS.eval`'s loop, `none` when the rule's evaluation raises. -/
def ruleRes (inputs : List (String × ℚ)) (mode : String) (nr : String × FuzzyRule) :
    Option (String × ℚ) :=
  match nr.2.eval inputs mode with
  | .ok t => some (t.2.1, t.2.2)
  | .error _ => none

/-- One mandami aggregation step of `FIS.eval`:
`output_values[set_n] = max(degree, output_values.get(set_n, 0.0))`. -/
def mandamiUpd (acc : List (String × ℚ)) (sd : String × ℚ) : List (String × ℚ) :=
  dictSet acc sd.1 (npMax sd.2 ((dictGet acc sd.1).getD 0))

theorem evalLoop_ok_allSome (inputs : List (String × ℚ)) (mode : String) :
    ∀ (rs : List (String × FuzzyRule)) (acc m : List (String × ℚ)),
      FIS.evalLoop inputs mode rs acc = .ok m →
      ∀ nr ∈ rs, (ruleRes inputs mode nr).isSome = true := by
  intro rs
  induction rs with
  | nil => intro acc m _ nr hnr; cases hnr
  | cons hd rest ih =>
      obtain ⟨rn, r⟩ := hd
      intro acc m h nr hnr
      simp only [FIS.evalLoop] at h
      cases hr : r.eval inputs mode with
      | error e => rw [hr, except_bind_error] at h; cases h
      | ok t =>
          rw [hr, except_bind_ok] at h
          rcases List.mem_cons.1 hnr with hh | ht
          · subst hh
            simp [ruleRes, hr]
          · split at h
            · exact ih _ _ h nr ht
            · split at h
              · exact ih _ _ h nr ht
              · cases h

theorem evalLoop_eq_foldl (inputs : List (String × ℚ)) :
    ∀ (rs : List (String × FuzzyRule)) (acc : List (String × ℚ)),
      (∀ nr ∈ rs, (ruleRes inputs "mandami" nr).isSome = true) →
      FIS.evalLoop inputs "mandami" rs acc =
        .ok (List.foldl mandamiUpd acc (rs.filterMap (ruleRes inputs "mandami"))) := by
  intro rs
  induction rs with
  | nil => intro acc _; rfl
  | cons hd rest ih =>
      obtain ⟨rn, r⟩ := hd
      intro acc hsome
      have hh := hsome (rn, r) (List.mem_cons_self _ _)
      cases hr : r.eval inputs "mandami" with
      | error e => rw [ruleRes, hr] at hh; simp at hh
      | ok t =>
          have hres : ruleRes inputs "mandami" (rn, r) = some (t.2.1, t.2.2) := by
            simp [ruleRes, hr]
          simp only [FIS.evalLoop]
          rw [hr, except_bind_ok]
          simp only [reduceIte]
          rw [List.filterMap_cons_some hres, List.foldl_cons]
          exact ih _ fun nr hnr => hsome nr (List.mem_cons_of_mem _ hnr)

theorem dictGet_foldl_mandamiUpd :
    ∀ (ds : List (String × ℚ)) (acc : List (String × ℚ)) (s : String),
      dictGet (List.foldl mandamiUpd acc ds) s =
        List.foldl (fun o d => some (npMax d (o.getD 0))) (dictGet acc s)
          (ds.filterMap fun p => if (p : String × ℚ).1 = s then some p.2 else none) := by
  intro ds
  induction ds with
  | nil => intro acc s; rfl
  | cons hd rest ih =>
      obtain ⟨n, d⟩ := hd
      intro acc s
      rw [List.foldl_cons, ih]
      by_cases hns : n = s
      · subst hns
        rw [@List.filterMap_cons_some (String × ℚ) ℚ
            (fun p => if p.1 = n then some p.2 else none) (n, d) rest d (by simp)]
        rw [List.foldl_cons]
        have : dictGet (mandamiUpd acc (n, d)) n = some (npMax d ((dictGet acc n).getD 0)) := by
          unfold mandamiUpd
          rw [dictGet_dictSet, if_pos rfl]
        rw [this]
      · rw [@List.filterMap_cons_none (String × ℚ) ℚ
            (fun p => if p.1 = s then some p.2 else none) (n, d) rest (by simp [hns])]
        have : dictGet (mandamiUpd acc (n, d)) s = dictGet acc s := by
          unfold mandamiUpd
          rw [dictGet_dictSet, if_neg hns]
        rw [this]

/-- C7: mandami aggregation is commutative and order-independent: if
`FIS.eval` succeeds on a rule registry, evaluating any permutation of the
rules (same antecedents and consequent) succeeds and produces a degree map
with identical lookups for every set name. -/
theorem mandami_eval_perm_invariant (av : List (String × FuzzyVariable))
    (cons : FuzzyVariable) (rules1 rules2 : List (String × FuzzyRule))
    (inputs : List (String × ℚ)) (v : FuzzyVariable) (m : List (String × ℚ))
    (hperm : rules1.Perm rules2)
    (h : FIS.eval ⟨av, cons, rules1⟩ inputs "mandami" = .ok (v, m)) :
    ∀ s, (FIS.eval ⟨av, cons, rules2⟩ inputs "mandami").map
        (fun p => dictGet p.2 s) = .ok (dictGet m s) := by
  intro s
  unfold FIS.eval at h ⊢
  cases hl : FIS.evalLoop inputs "mandami" rules1 [] with
  | error e => rw [hl, except_map_error] at h; cases h
  | ok m1 =>
      rw [hl, except_map_ok] at h
      cases h
      have hsome1 := evalLoop_ok_allSome inputs "mandami" rules1 [] _ hl
      have hsome2 : ∀ nr ∈ rules2, (ruleRes inputs "mandami" nr).isSome = true :=
        fun nr hnr => hsome1 nr (hperm.mem_iff.2 hnr)
      have h1 := evalLoop_eq_foldl inputs rules1 [] hsome1
      have h2 := evalLoop_eq_foldl inputs rules2 [] hsome2
      rw [hl] at h1
      cases h1
      rw [h2, except_map_ok, except_map_ok]
      dsimp only
      rw [dictGet_foldl_mandamiUpd, dictGet_foldl_mandamiUpd]
      have hp : (rules1.filterMap (ruleRes inputs "mandami")).Perm
          (rules2.filterMap (ruleRes inputs "mandami")) :=
        hperm.filterMap _
      have hp2 : ((rules1.filterMap (ruleRes inputs "mandami")).filterMap
            fun p => if (p : String × ℚ).1 = s then some p.2 else none).Perm
          ((rules2.filterMap (ruleRes inputs "mandami")).filterMap
            fun p => if (p : String × ℚ).1 = s then some p.2 else none) :=
        hp.filterMap _
      refine congrArg Except.ok ?_
      refine (List.Perm.foldl_eq' hp2 ?_ _).symm
      intro x _ y _ z
      simp only [Option.getD_some]
      rw [npMax_eq_max, npMax_eq_max, npMax_eq_max, npMax_eq_max]
      rw [max_left_comm]

/-- C7 witness: swapping the two rules of `fisTwo` leaves the lookup of
`"media"` in the aggregated map unchanged. -/
theorem mandami_eval_perm_invariant_witness :
    (FIS.eval ⟨[("e", eVar)], duVar, [("r2", rulePositivo), ("r1", ruleCero)]⟩
        [("e", 4/5)] "mandami").map (fun p => dictGet p.2 "media")
      = .ok (dictGet [("media", (3 : ℚ)/5)] "media") :=
  mandami_eval_perm_invariant [("e", eVar)] duVar
    [("r1", ruleCero), ("r2", rulePositivo)] [("r2", rulePositivo), ("r1", ruleCero)]
    [("e", 4/5)] duVar [("media", 3/5)]
    (List.Perm.swap ("r2", rulePositivo) ("r1", ruleCero) [])
    fisTwo_eval "media"
